import Mathlib

/-!
Verification of the session/connection-pool engine of the hpcc-systems
cpp-driver against its specification.

The repository ships the declarations of the session layer in
`src/include/cql/internal/cql_session_impl.hpp` (connect,
allocate_connection, trashcan_put, trashcan_recycle, free_connection,
close, defunct, _reconnect_limit, _trashcan, _connection_pool,
_allocated_connections) but the bodies of those member functions live in
a translation unit that is not part of the provided sources.  Where a
body is missing, the corresponding Lean definition is modelled from the
specification text and marked as such in its doc comment.  The inline
body of `HttpClient::is_ok` in `src/cpp-driver/src/http_client.hpp` is
present and embedded directly.
-/

namespace CppDriver

/-! ## HTTP client (src/cpp-driver/src/http_client.hpp) -/

namespace Http

/-- Abstraction of the state of `HttpClient` that its `is_ok` reads:
the result of `socket_connector_->is_ok()` at the moment of the call and
the parsed `status_code_`. -/
structure HttpClient where
  socket_ok : Bool
  status_code : Nat
deriving Repr, DecidableEq

/-- Embedding of the inline body in the header:
`return socket_connector_->is_ok() && status_code_ >= 200 && status_code_ <= 299;`. -/
def HttpClient.is_ok (c : HttpClient) : Bool :=
  c.socket_ok && decide (c.status_code ≥ 200) && decide (c.status_code ≤ 299)

end Http

/-! ## Stream allocator (spec section 4.1) -/

namespace StreamAlloc

/-- Modelled from the spec: the stream allocator implementation is not
under src (only the session header is provided).  Per section 4.1,
`acquire()` returns an unused stream id or signals `Exhausted` when all
ids for the connection are outstanding; `release(id)` returns the id to
the free set and fails with `DoubleRelease` if the id was not
outstanding.  Ids are drawn from a fixed-size pool of size
`capacity`. -/
structure State where
  capacity : Nat
  free : List Nat
  outstanding : List Nat
deriving Repr, DecidableEq

/-- A fresh allocator: all `n` ids are in the free set. -/
def init (n : Nat) : State :=
  { capacity := n, free := List.range n, outstanding := [] }

inductive AcquireResult where
  | ok (id : Nat) (s : State)
  | exhausted
deriving Repr, DecidableEq

/-- Modelled from the spec: `acquire()` hands out an id from the free
set, moving it to the outstanding set, or signals `Exhausted`. -/
def acquire (s : State) : AcquireResult :=
  match s.free with
  | [] => .exhausted
  | i :: rest =>
      .ok i { s with free := rest, outstanding := i :: s.outstanding }

inductive ReleaseResult where
  | ok (s : State)
  | doubleRelease
deriving Repr, DecidableEq

/-- Modelled from the spec: `release(id)` returns the id to the free set
and fails with `DoubleRelease` if the id was not outstanding. -/
def release (s : State) (id : Nat) : ReleaseResult :=
  if id ∈ s.outstanding then
    .ok { s with free := id :: s.free, outstanding := s.outstanding.erase id }
  else
    .doubleRelease

/-- One client-visible operation on the allocator. -/
inductive Op where
  | acquire
  | release (id : Nat)
deriving Repr, DecidableEq

/-- Apply one operation; failed operations leave the state unchanged. -/
def step (s : State) : Op → State
  | .acquire =>
      match acquire s with
      | .ok _ s2 => s2
      | .exhausted => s
  | .release id =>
      match release s id with
      | .ok s2 => s2
      | .doubleRelease => s

/-- Apply a sequence of operations left to right. -/
def run (s : State) : List Op → State
  | [] => s
  | op :: ops => run (step s op) ops

/-- The allocator invariant: the free and outstanding lists together are
a permutation of the full id range, hence disjoint and duplicate
free. -/
def WF (s : State) : Prop :=
  (s.free ++ s.outstanding).Perm (List.range s.capacity)

theorem WF_init (n : Nat) : WF (init n) := by
  simp [WF, init]

theorem capacity_step (s : State) (op : Op) : (step s op).capacity = s.capacity := by
  cases op with
  | acquire =>
      simp only [step, acquire]
      cases s.free <;> rfl
  | release id =>
      simp only [step, release]
      by_cases h : id ∈ s.outstanding <;> simp [h]

theorem WF_step (s : State) (op : Op) (h : WF s) : WF (step s op) := by
  cases op with
  | acquire =>
      simp only [step, acquire]
      cases hf : s.free with
      | nil => exact h
      | cons i rest =>
          simp only [WF] at *
          rw [hf] at h
          exact List.Perm.trans List.perm_middle (by simpa using h)
  | release id =>
      simp only [step, release]
      by_cases hm : id ∈ s.outstanding
      · rw [if_pos hm]
        simp only [WF] at *
        have h1 : ((id :: s.free) ++ s.outstanding.erase id).Perm
            (s.free ++ id :: s.outstanding.erase id) := List.perm_middle.symm
        have h2 : (s.free ++ id :: s.outstanding.erase id).Perm
            (s.free ++ s.outstanding) :=
          List.Perm.append_left _ (List.perm_cons_erase hm).symm
        exact (h1.trans h2).trans h
      · rw [if_neg hm]
        exact h

theorem WF_run (s : State) (ops : List Op) (h : WF s) : WF (run s ops) := by
  induction ops generalizing s with
  | nil => exact h
  | cons op ops ih => exact ih _ (WF_step s op h)

theorem nodup_of_WF (s : State) (h : WF s) : (s.free ++ s.outstanding).Nodup :=
  h.nodup_iff.mpr (List.nodup_range _)

/-- Running only acquire operations consumes the free list from the
front. -/
theorem free_run_acquires (k : Nat) (s : State) :
    (run s (List.replicate k .acquire)).free = s.free.drop k := by
  induction k generalizing s with
  | zero => simp [run]
  | succ k ih =>
      simp only [List.replicate_succ, run]
      cases hf : s.free with
      | nil =>
          simp only [step, acquire, hf]
          rw [ih]
          simp [hf]
      | cons i rest =>
          simp only [step, acquire, hf]
          rw [ih]
          simp [hf]

end StreamAlloc

/-! ## Connection pool for one host (spec section 4.3) -/

namespace Pool

/-- Proximity class of a host (spec section 3). -/
inductive Distance where
  | localNode
  | remoteNode
  | ignoredNode
deriving Repr, DecidableEq

/-- Per-proximity-class connection limits and the trashcan grace
period, read from configuration at pool-allocation time. -/
structure Config where
  limitLocal : Nat
  limitRemote : Nat
  grace : Nat
deriving Repr, DecidableEq

/-- The configured connection count for a proximity class. -/
def Config.limit (cfg : Config) : Distance → Nat
  | .localNode => cfg.limitLocal
  | .remoteNode => cfg.limitRemote
  | .ignoredNode => 0

inductive PoolError where
  | hostIgnored
  | notOwned
deriving Repr, DecidableEq

/-- Modelled from the spec: the bodies of
`cql_session_impl_t::allocate_connection`, `trashcan_put`,
`trashcan_recycle` and `free_connection` are not under src (only their
declarations in cql_session_impl.hpp are).  The per-host pool state:
connections are identified by the order of their creation (`nextId`
counts connections ever created); `active` is the live collection,
`trashcan` the quarantine, `freed` the destroyed connections, and
`tstamps` records the time each connection entered the trashcan. -/
structure State where
  active : Finset Nat
  trashcan : Finset Nat
  freed : Finset Nat
  tstamps : List (Nat × Nat)
  nextId : Nat
deriving DecidableEq

/-- An empty pool for a new host. -/
def init : State :=
  { active := ∅, trashcan := ∅, freed := ∅, tstamps := [], nextId := 0 }

/-- The recorded trashcan entry time of a connection. -/
def tstamp (s : State) (c : Nat) : Nat :=
  (s.tstamps.lookup c).getD 0

/-- Open fresh connections until the active collection reaches `lim`;
a no-op when already at or above capacity. -/
def allocFill (lim : Nat) (s : State) : State :=
  if s.active.card < lim then
    let m := lim - s.active.card
    let newIds := (Finset.range m).image (fun k => s.nextId + k)
    { s with active := s.active ∪ newIds, nextId := s.nextId + m }
  else s

/-- Modelled from the spec: `allocate(host, distance)` fails with
`HostIgnored` when the distance is IGNORED, otherwise opens new
connections up to the configured count for the distance class and
returns the set of connections now usable; a no-op when already at
capacity. -/
def allocate_connection (cfg : Config) (d : Distance) (s : State) :
    Except PoolError (State × Finset Nat) :=
  match d with
  | .ignoredNode => .error .hostIgnored
  | _ => .ok (allocFill (cfg.limit d) s, (allocFill (cfg.limit d) s).active)

/-- Modelled from the spec: `trashcan_put(connection)` moves a
connection out of active rotation into the trashcan with a
timestamp. -/
def trashcan_put (s : State) (c : Nat) (now : Nat) : State :=
  if c ∈ s.active then
    { s with active := s.active.erase c,
             trashcan := insert c s.trashcan,
             tstamps := (c, now) :: s.tstamps }
  else s

/-- Modelled from the spec: `trashcan_recycle(host)` returns a
non-expired trashcan entry to the active collection if one exists,
otherwise returns none. -/
def trashcan_recycle (cfg : Config) (s : State) (now : Nat) :
    State × Option Nat :=
  let fresh := s.trashcan.filter (fun c => now ≤ tstamp s c + cfg.grace)
  if h : fresh.Nonempty then
    let c := fresh.min' h
    ({ s with trashcan := s.trashcan.erase c, active := insert c s.active },
      some c)
  else (s, none)

/-- Modelled from the spec: `free(connection)` destroys the connection,
removing it from whichever collection holds it, and fails with
`NotOwned` when the connection is in neither. -/
def free_connection (s : State) (c : Nat) : Except PoolError State :=
  if c ∈ s.active then
    .ok { s with active := s.active.erase c, freed := insert c s.freed }
  else if c ∈ s.trashcan then
    .ok { s with trashcan := s.trashcan.erase c, freed := insert c s.freed }
  else
    .error .notOwned

/-- One pool operation (the distance of the host is fixed for the whole
run, since a host has a single proximity class). -/
inductive Op where
  | alloc
  | put (c : Nat) (now : Nat)
  | recycle (now : Nat)
  | free (c : Nat)
deriving Repr, DecidableEq

def Op.isRecycle : Op → Bool
  | .recycle _ => true
  | _ => false

/-- Apply one operation; failed operations leave the state unchanged. -/
def step (cfg : Config) (d : Distance) (s : State) : Op → State
  | .alloc =>
      match allocate_connection cfg d s with
      | .ok (s2, _) => s2
      | .error _ => s
  | .put c now => trashcan_put s c now
  | .recycle now => (trashcan_recycle cfg s now).1
  | .free c =>
      match free_connection s c with
      | .ok s2 => s2
      | .error _ => s

/-- Apply a sequence of operations left to right. -/
def run (cfg : Config) (d : Distance) (s : State) : List Op → State
  | [] => s
  | op :: ops => run cfg d (step cfg d s op) ops

/-- Pool invariant: every created connection id is below `nextId`, the
three collections cover exactly the created ids, and no id is in two
collections at once. -/
def Inv (s : State) : Prop :=
  ∀ c : Nat,
    (c < s.nextId ↔ (c ∈ s.active ∨ c ∈ s.trashcan ∨ c ∈ s.freed)) ∧
    ¬(c ∈ s.active ∧ c ∈ s.trashcan) ∧
    ¬(c ∈ s.active ∧ c ∈ s.freed) ∧
    ¬(c ∈ s.trashcan ∧ c ∈ s.freed)

theorem Inv_init : Inv init := by
  intro c
  simp [init]

theorem mem_newIds (n m c : Nat) :
    (c ∈ (Finset.range m).image (fun k => n + k)) ↔ (n ≤ c ∧ c < n + m) := by
  simp only [Finset.mem_image, Finset.mem_range]
  constructor
  · rintro ⟨k, hk, rfl⟩
    omega
  · intro h
    exact ⟨c - n, by omega, by omega⟩

theorem Inv_allocFill (lim : Nat) (s : State) (h : Inv s) :
    Inv (allocFill lim s) := by
  simp only [allocFill]
  by_cases hlt : s.active.card < lim
  · rw [if_pos hlt]
    intro c
    obtain ⟨h1, h2, h3, h4⟩ := h c
    simp only [Finset.mem_union, mem_newIds]
    rcases Nat.lt_or_ge c s.nextId with hcn | hcn
    · have hor := h1.mp hcn
      refine ⟨⟨fun _ => ?_, fun _ => by omega⟩, ?_, ?_, ?_⟩
      · tauto
      · rintro ⟨hA | hR, hT⟩
        · exact h2 ⟨hA, hT⟩
        · omega
      · rintro ⟨hA | hR, hF⟩
        · exact h3 ⟨hA, hF⟩
        · omega
      · exact h4
    · have hA : c ∉ s.active := fun hm => by
        have := h1.mpr (Or.inl hm); omega
      have hT : c ∉ s.trashcan := fun hm => by
        have := h1.mpr (Or.inr (Or.inl hm)); omega
      have hF : c ∉ s.freed := fun hm => by
        have := h1.mpr (Or.inr (Or.inr hm)); omega
      refine ⟨⟨fun hc => ?_, ?_⟩, ?_, ?_, ?_⟩
      · exact Or.inl (Or.inr ⟨hcn, hc⟩)
      · rintro ((hm | hm) | hm | hm)
        · exact absurd hm hA
        · omega
        · exact absurd hm hT
        · exact absurd hm hF
      · tauto
      · tauto
      · tauto
  · rw [if_neg hlt]
    exact h

theorem Inv_alloc (cfg : Config) (d : Distance) (s : State) (h : Inv s) :
    Inv (step cfg d s .alloc) := by
  cases d with
  | ignoredNode => exact h
  | localNode => exact Inv_allocFill _ s h
  | remoteNode => exact Inv_allocFill _ s h

theorem Inv_put (s : State) (c now : Nat) (h : Inv s) :
    Inv (trashcan_put s c now) := by
  simp only [trashcan_put]
  by_cases hc : c ∈ s.active
  · rw [if_pos hc]
    intro x
    obtain ⟨h1, h2, h3, h4⟩ := h x
    simp only [Finset.mem_erase, Finset.mem_insert]
    by_cases hx : x = c
    · subst hx
      have hlt : x < s.nextId := h1.mpr (Or.inl hc)
      refine ⟨⟨fun _ => Or.inr (Or.inl (Or.inl rfl)), fun _ => hlt⟩, ?_, ?_, ?_⟩
      · tauto
      · tauto
      · rintro ⟨-, hF⟩
        exact h3 ⟨hc, hF⟩
    · constructor
      · constructor
        · intro hx2
          rcases h1.mp hx2 with hA | hT | hF
          · exact Or.inl ⟨hx, hA⟩
          · exact Or.inr (Or.inl (Or.inr hT))
          · exact Or.inr (Or.inr hF)
        · rintro (⟨-, hA⟩ | (hT | hT) | hF)
          · exact h1.mpr (Or.inl hA)
          · exact absurd hT hx
          · exact h1.mpr (Or.inr (Or.inl hT))
          · exact h1.mpr (Or.inr (Or.inr hF))
      · refine ⟨?_, ?_, ?_⟩
        · rintro ⟨⟨-, hA⟩, hT | hT⟩
          · exact absurd hT hx
          · exact h2 ⟨hA, hT⟩
        · rintro ⟨⟨-, hA⟩, hF⟩
          · exact h3 ⟨hA, hF⟩
        · rintro ⟨hT | hT, hF⟩
          · exact absurd hT hx
          · exact h4 ⟨hT, hF⟩
  · rw [if_neg hc]
    exact h

theorem Inv_recycle (cfg : Config) (s : State) (now : Nat) (h : Inv s) :
    Inv (trashcan_recycle cfg s now).1 := by
  simp only [trashcan_recycle]
  by_cases hne :
      (s.trashcan.filter (fun c => now ≤ tstamp s c + cfg.grace)).Nonempty
  · rw [dif_pos hne]
    have hcT : (s.trashcan.filter
        (fun c => now ≤ tstamp s c + cfg.grace)).min' hne ∈ s.trashcan :=
      (Finset.mem_filter.mp (Finset.min'_mem _ hne)).1
    set c := (s.trashcan.filter (fun c => now ≤ tstamp s c + cfg.grace)).min' hne
    intro x
    obtain ⟨h1, h2, h3, h4⟩ := h x
    simp only [Finset.mem_erase, Finset.mem_insert]
    by_cases hx : x = c
    · subst hx
      have hlt : c < s.nextId := h1.mpr (Or.inr (Or.inl hcT))
      refine ⟨⟨fun _ => Or.inl (Or.inl rfl), fun _ => hlt⟩, ?_, ?_, ?_⟩
      · tauto
      · rintro ⟨-, hF⟩
        exact h4 ⟨hcT, hF⟩
      · tauto
    · constructor
      · constructor
        · intro hx2
          rcases h1.mp hx2 with hA | hT | hF
          · exact Or.inl (Or.inr hA)
          · exact Or.inr (Or.inl ⟨hx, hT⟩)
          · exact Or.inr (Or.inr hF)
        · rintro ((hA | hA) | ⟨-, hT⟩ | hF)
          · exact absurd hA hx
          · exact h1.mpr (Or.inl hA)
          · exact h1.mpr (Or.inr (Or.inl hT))
          · exact h1.mpr (Or.inr (Or.inr hF))
      · refine ⟨?_, ?_, ?_⟩
        · rintro ⟨hA | hA, -, hT⟩
          · exact absurd hA hx
          · exact h2 ⟨hA, hT⟩
        · rintro ⟨hA | hA, hF⟩
          · subst hA
            exact h4 ⟨hcT, hF⟩
          · exact h3 ⟨hA, hF⟩
        · rintro ⟨⟨-, hT⟩, hF⟩
          exact h4 ⟨hT, hF⟩
  · rw [dif_neg hne]
    exact h

theorem Inv_free (cfg : Config) (d : Distance) (s : State) (c : Nat)
    (h : Inv s) : Inv (step cfg d s (.free c)) := by
  simp only [step, free_connection]
  by_cases hcA : c ∈ s.active
  · rw [if_pos hcA]
    intro x
    obtain ⟨h1, h2, h3, h4⟩ := h x
    simp only [Finset.mem_erase, Finset.mem_insert]
    by_cases hx : x = c
    · subst hx
      have hlt : x < s.nextId := h1.mpr (Or.inl hcA)
      refine ⟨⟨fun _ => Or.inr (Or.inr (Or.inl rfl)), fun _ => hlt⟩, ?_, ?_, ?_⟩
      · rintro ⟨⟨hne, -⟩, -⟩
        exact hne rfl
      · tauto
      · rintro ⟨hT, -⟩
        exact h2 ⟨hcA, hT⟩
    · constructor
      · constructor
        · intro hx2
          rcases h1.mp hx2 with hA | hT | hF
          · exact Or.inl ⟨hx, hA⟩
          · exact Or.inr (Or.inl hT)
          · exact Or.inr (Or.inr (Or.inr hF))
        · rintro (⟨-, hA⟩ | hT | hF | hF)
          · exact h1.mpr (Or.inl hA)
          · exact h1.mpr (Or.inr (Or.inl hT))
          · exact absurd hF hx
          · exact h1.mpr (Or.inr (Or.inr hF))
      · refine ⟨?_, ?_, ?_⟩
        · rintro ⟨⟨-, hA⟩, hT⟩
          exact h2 ⟨hA, hT⟩
        · rintro ⟨⟨-, hA⟩, hF | hF⟩
          · exact absurd hF hx
          · exact h3 ⟨hA, hF⟩
        · rintro ⟨hT, hF | hF⟩
          · exact absurd hF hx
          · exact h4 ⟨hT, hF⟩
  · rw [if_neg hcA]
    by_cases hcT : c ∈ s.trashcan
    · rw [if_pos hcT]
      intro x
      obtain ⟨h1, h2, h3, h4⟩ := h x
      simp only [Finset.mem_erase, Finset.mem_insert]
      by_cases hx : x = c
      · subst hx
        have hlt : x < s.nextId := h1.mpr (Or.inr (Or.inl hcT))
        refine ⟨⟨fun _ => Or.inr (Or.inr (Or.inl rfl)), fun _ => hlt⟩,
          ?_, ?_, ?_⟩
        · rintro ⟨hA, -⟩
          exact h2 ⟨hA, hcT⟩
        · rintro ⟨hA, -⟩
          exact hcA hA
        · rintro ⟨⟨hne, -⟩, -⟩
          exact hne rfl
      · constructor
        · constructor
          · intro hx2
            rcases h1.mp hx2 with hA | hT | hF
            · exact Or.inl hA
            · exact Or.inr (Or.inl ⟨hx, hT⟩)
            · exact Or.inr (Or.inr (Or.inr hF))
          · rintro (hA | ⟨-, hT⟩ | hF | hF)
            · exact h1.mpr (Or.inl hA)
            · exact h1.mpr (Or.inr (Or.inl hT))
            · exact absurd hF hx
            · exact h1.mpr (Or.inr (Or.inr hF))
        · refine ⟨?_, ?_, ?_⟩
          · rintro ⟨hA, -, hT⟩
            exact h2 ⟨hA, hT⟩
          · rintro ⟨hA, hF | hF⟩
            · exact absurd hF hx
            · exact h3 ⟨hA, hF⟩
          · rintro ⟨⟨-, hT⟩, hF | hF⟩
            · exact absurd hF hx
            · exact h4 ⟨hT, hF⟩
    · rw [if_neg hcT]
      exact h

theorem Inv_step (cfg : Config) (d : Distance) (s : State) (op : Op)
    (h : Inv s) : Inv (step cfg d s op) := by
  cases op with
  | alloc => exact Inv_alloc cfg d s h
  | put c now => exact Inv_put s c now h
  | recycle now => exact Inv_recycle cfg s now h
  | free c => exact Inv_free cfg d s c h

theorem Inv_run (cfg : Config) (d : Distance) (s : State) (ops : List Op)
    (h : Inv s) : Inv (run cfg d s ops) := by
  induction ops generalizing s with
  | nil => exact h
  | cons op ops ih => exact ih _ (Inv_step cfg d s op h)

theorem step_alloc (cfg : Config) (d : Distance) (s : State) :
    step cfg d s .alloc =
      match d with
      | .ignoredNode => s
      | _ => allocFill (cfg.limit d) s := by
  cases d <;> rfl

theorem card_allocFill (lim : Nat) (s : State) (h : Inv s) :
    (allocFill lim s).active.card = max s.active.card lim := by
  simp only [allocFill]
  by_cases hlt : s.active.card < lim
  · rw [if_pos hlt]
    have hdisj : Disjoint s.active
        ((Finset.range (lim - s.active.card)).image (fun k => s.nextId + k)) := by
      rw [Finset.disjoint_left]
      intro a ha hb
      have h1 := (h a).1.mpr (Or.inl ha)
      rw [mem_newIds] at hb
      omega
    have hcard : ((Finset.range (lim - s.active.card)).image
        (fun k => s.nextId + k)).card = lim - s.active.card := by
      rw [Finset.card_image_of_injective _ (fun a b hab => by omega)]
      exact Finset.card_range _
    rw [Finset.card_union_of_disjoint hdisj, hcard]
    omega
  · rw [if_neg hlt]
    omega

theorem allocFill_no_op (lim : Nat) (s : State) (h : lim ≤ s.active.card) :
    allocFill lim s = s := by
  simp only [allocFill]
  rw [if_neg (by omega)]

theorem card_le_limit_step (cfg : Config) (d : Distance) (s : State)
    (op : Op) (hInv : Inv s) (hcard : s.active.card ≤ cfg.limit d)
    (hop : op.isRecycle = false) :
    (step cfg d s op).active.card ≤ cfg.limit d := by
  cases op with
  | alloc =>
      rw [step_alloc]
      cases d with
      | ignoredNode => exact hcard
      | localNode =>
          rw [card_allocFill _ s hInv]
          omega
      | remoteNode =>
          rw [card_allocFill _ s hInv]
          omega
  | put c now =>
      simp only [step, trashcan_put]
      by_cases hc : c ∈ s.active
      · rw [if_pos hc]
        exact le_trans (Finset.card_le_card (Finset.erase_subset _ _)) hcard
      · rw [if_neg hc]
        exact hcard
  | recycle now => exact absurd hop (by simp [Op.isRecycle])
  | free c =>
      simp only [step, free_connection]
      by_cases hcA : c ∈ s.active
      · rw [if_pos hcA]
        exact le_trans (Finset.card_le_card (Finset.erase_subset _ _)) hcard
      · rw [if_neg hcA]
        by_cases hcT : c ∈ s.trashcan
        · rw [if_pos hcT]
          exact hcard
        · rw [if_neg hcT]
          exact hcard

theorem card_le_limit_run (cfg : Config) (d : Distance) (s : State)
    (ops : List Op) (hInv : Inv s) (hcard : s.active.card ≤ cfg.limit d)
    (hops : ∀ o ∈ ops, o.isRecycle = false) :
    (run cfg d s ops).active.card ≤ cfg.limit d := by
  induction ops generalizing s with
  | nil => exact hcard
  | cons op ops ih =>
      exact ih _ (Inv_step cfg d s op hInv)
        (card_le_limit_step cfg d s op hInv hcard
          (hops op (List.mem_cons_self op ops)))
        (fun o ho => hops o (List.mem_cons_of_mem op ho))

/-- The pair of new state and returned connection set of one allocate
call, where a failed call leaves the state unchanged and returns
nothing. -/
def allocStep (cfg : Config) (d : Distance) (s : State) :
    State × Option (Finset Nat) :=
  match allocate_connection cfg d s with
  | .ok (s2, conns) => (s2, some conns)
  | .error _ => (s, none)

end Pool

/-! ## Connection multiplexing (spec section 4.2) -/

namespace Conn

/-- Modelled from the spec: the connection implementation is not under
src (only the session header is).  Spec sections 3 and 4.2: a
Connection owns a stream-id table mapping each outstanding stream id to
its pending request (request ids here count the successful sends), the
ids are drawn from a fixed free pool, and every completion (success or
failure) is recorded exactly once.  `completions` is the log of
delivered completions, `sends` the number of successful send calls. -/
structure State where
  freeIds : List Nat
  table : List (Nat × Nat)
  nextReq : Nat
  completions : List (Nat × Bool)
  sends : Nat
  defunct : Bool
deriving Repr, DecidableEq

/-- A fresh connection with `n` stream ids. -/
def init (n : Nat) : State :=
  { freeIds := List.range n, table := [], nextReq := 0,
    completions := [], sends := 0, defunct := false }

/-- Modelled from the spec: `send(request)` acquires a stream id,
records the Pending Request under that id and hands the frame to the
transport; fails with NoCapacity (returning none, no state change)
when the allocator is exhausted. -/
def send (s : State) : State × Option Nat :=
  match s.freeIds with
  | [] => (s, none)
  | i :: rest =>
      ({ s with freeIds := rest,
                table := (i, s.nextReq) :: s.table,
                nextReq := s.nextReq + 1,
                sends := s.sends + 1 }, some i)

/-- Modelled from the spec: `on_response(stream_id, payload)` looks up
and removes the Pending Request for that id, releases the id and
completes it with success; a stale or duplicate id is a logged
ProtocolViolation with no completion. -/
def on_response (s : State) (i : Nat) : State :=
  match s.table.lookup i with
  | some r =>
      { s with table := s.table.eraseP (fun e => e.1 == i),
               freeIds := i :: s.freeIds,
               completions := s.completions ++ [(r, true)] }
  | none => s

/-- Modelled from the spec: `on_error` with a specific stream id
completes that Pending Request with failure and releases its id. -/
def on_error (s : State) (i : Nat) : State :=
  match s.table.lookup i with
  | some r =>
      { s with table := s.table.eraseP (fun e => e.1 == i),
               freeIds := i :: s.freeIds,
               completions := s.completions ++ [(r, false)] }
  | none => s

/-- Modelled from the spec: a connection-wide error completes all
outstanding Pending Requests with a ConnectionLost failure and marks
the connection defunct. -/
def connectionLost (s : State) : State :=
  { s with table := [],
           freeIds := s.freeIds ++ s.table.map Prod.fst,
           completions := s.completions ++ s.table.map (fun e => (e.2, false)),
           defunct := true }

inductive Op where
  | send
  | response (i : Nat)
  | errorOn (i : Nat)
  | connLost
deriving Repr, DecidableEq

def step (s : State) : Op → State
  | .send => (send s).1
  | .response i => on_response s i
  | .errorOn i => on_error s i
  | .connLost => connectionLost s

def run (s : State) : List Op → State
  | [] => s
  | op :: ops => run (step s op) ops

theorem run_append (s : State) (ops1 ops2 : List Op) :
    run s (ops1 ++ ops2) = run (run s ops1) ops2 := by
  induction ops1 generalizing s with
  | nil => rfl
  | cons op ops1 ih =>
      simp only [List.cons_append, run]
      exact ih _

/-- The request ids that have been completed or are still pending. -/
def ReqIds (s : State) : List Nat :=
  s.completions.map Prod.fst ++ s.table.map Prod.snd

/-- Connection invariant: completions plus pending requests account
exactly for the successful sends, no request id appears twice among
them, and all of them were issued by a send. -/
def CInv (s : State) : Prop :=
  s.completions.length + s.table.length = s.sends ∧
  (ReqIds s).Nodup ∧
  ∀ r ∈ ReqIds s, r < s.nextReq

theorem CInv_init (n : Nat) : CInv (init n) := by
  refine ⟨rfl, ?_, ?_⟩ <;> simp [ReqIds, init]

theorem lookup_eraseP (l : List (Nat × Nat)) (i r : Nat)
    (h : l.lookup i = some r) :
    (l.map Prod.snd).Perm
      (r :: (l.eraseP (fun e => e.1 == i)).map Prod.snd) ∧
    (l.eraseP (fun e => e.1 == i)).length + 1 = l.length := by
  induction l with
  | nil => simp [List.lookup] at h
  | cons hd tl ih =>
      obtain ⟨k, v⟩ := hd
      by_cases hk : k = i
      · subst hk
        simp only [List.lookup, beq_self_eq_true, Option.some.injEq] at h
        subst h
        simp [List.eraseP_cons]
      · have hb : (i == k) = false := by
          simp [Ne.symm hk]
        have hb2 : (k == i) = false := by
          simp [hk]
        simp only [List.lookup, hb] at h
        obtain ⟨hperm, hlen⟩ := ih h
        simp only [List.eraseP_cons, hb2, cond_false, List.map_cons,
          List.length_cons]
        exact ⟨(hperm.cons v).trans (List.Perm.swap r v _), by omega⟩

theorem CInv_step (s : State) (op : Op) (h : CInv s) : CInv (step s op) := by
  obtain ⟨hlen, hnd, hlt⟩ := h
  cases op with
  | send =>
      simp only [step, send]
      cases hf : s.freeIds with
      | nil => exact ⟨hlen, hnd, hlt⟩
      | cons i rest =>
          dsimp only
          have hperm : (s.completions.map Prod.fst ++
              ((i, s.nextReq) :: s.table).map Prod.snd).Perm
              (s.nextReq :: (s.completions.map Prod.fst ++
                s.table.map Prod.snd)) := by
            simp only [List.map_cons]
            exact List.perm_middle
          refine ⟨?_, ?_, ?_⟩
          · simp only [List.length_cons]
            omega
          · simp only [ReqIds]
            refine hperm.nodup_iff.mpr (List.nodup_cons.mpr ⟨?_, hnd⟩)
            intro hmem
            exact absurd (hlt _ hmem) (by omega)
          · intro r hr
            simp only [ReqIds] at hr
            have hr3 := (hperm.mem_iff).mp hr
            rw [List.mem_cons] at hr3
            rcases hr3 with hr2 | hr2
            · dsimp only
              omega
            · have := hlt _ hr2
              dsimp only
              omega
  | response i =>
      simp only [step, on_response]
      cases hl : s.table.lookup i with
      | none => exact ⟨hlen, hnd, hlt⟩
      | some r =>
          dsimp only
          obtain ⟨hperm, hlen2⟩ := lookup_eraseP s.table i r hl
          have hR : (s.completions.map Prod.fst ++ s.table.map Prod.snd).Perm
              ((s.completions ++ [(r, true)]).map Prod.fst ++
                (s.table.eraseP (fun e => e.1 == i)).map Prod.snd) := by
            refine ((List.Perm.append_left _ hperm).trans ?_)
            simp [List.perm_middle.symm]
          refine ⟨?_, ?_, ?_⟩
          · simp only [List.length_append, List.length_singleton]
            omega
          · simp only [ReqIds]
            exact hR.nodup_iff.mp hnd
          · intro x hx
            simp only [ReqIds] at hx
            exact hlt x (hR.mem_iff.mpr hx)
  | errorOn i =>
      simp only [step, on_error]
      cases hl : s.table.lookup i with
      | none => exact ⟨hlen, hnd, hlt⟩
      | some r =>
          dsimp only
          obtain ⟨hperm, hlen2⟩ := lookup_eraseP s.table i r hl
          have hR : (s.completions.map Prod.fst ++ s.table.map Prod.snd).Perm
              ((s.completions ++ [(r, false)]).map Prod.fst ++
                (s.table.eraseP (fun e => e.1 == i)).map Prod.snd) := by
            refine ((List.Perm.append_left _ hperm).trans ?_)
            simp [List.perm_middle.symm]
          refine ⟨?_, ?_, ?_⟩
          · simp only [List.length_append, List.length_singleton]
            omega
          · simp only [ReqIds]
            exact hR.nodup_iff.mp hnd
          · intro x hx
            simp only [ReqIds] at hx
            exact hlt x (hR.mem_iff.mpr hx)
  | connLost =>
      have hmap : (s.table.map (fun e => (e.2, false))).map Prod.fst =
          s.table.map Prod.snd := by
        rw [List.map_map]
        rfl
      refine ⟨?_, ?_, ?_⟩
      · simp only [step, connectionLost, List.length_append,
          List.length_map, List.length_nil]
        omega
      · simp only [step, connectionLost, ReqIds, List.map_append, hmap,
          List.map_nil, List.append_nil]
        exact hnd
      · intro r hr
        simp only [step, connectionLost, ReqIds, List.map_append, hmap,
          List.map_nil, List.append_nil] at hr
        exact hlt r hr

theorem CInv_run (s : State) (ops : List Op) (h : CInv s) :
    CInv (run s ops) := by
  induction ops generalizing s with
  | nil => exact h
  | cons op ops ih => exact ih _ (CInv_step s op h)

end Conn

/-! ## Session connect over a query plan (spec section 4.6) -/

namespace Connect

/-- A host is identified by its address string; connections by an
integer key. -/
abbrev Host := String

inductive ConnectError where
  | noHostAvailable
deriving Repr, DecidableEq

/-- Modelled from the spec: the body of `cql_session_impl_t::connect`
is not under src (only its declaration is).  Spec section 4.6: iterate
the plan; for each host try `allocate` on that host, then
`trashcan_recycle` if allocation yields nothing, appending attempted
hosts to `tried_hosts`; return the first usable connection or fail
with `NoHostAvailable` once the plan is exhausted.  The per-host
results of allocation and recycling are abstracted as functions from
hosts to optional connections. -/
def connect (alloc recycle : Host → Option Nat) :
    List Host → List Host → List Host × Except ConnectError Nat
  | [], tried => (tried, .error .noHostAvailable)
  | h :: plan, tried =>
      match alloc h with
      | some c => (tried ++ [h], .ok c)
      | none =>
          match recycle h with
          | some c => (tried ++ [h], .ok c)
          | none => connect alloc recycle plan (tried ++ [h])

/-- A host yields a usable connection if allocation does, or failing
that if the trashcan does (the order the claim states). -/
def usable (alloc recycle : Host → Option Nat) (h : Host) : Option Nat :=
  match alloc h with
  | some c => some c
  | none => recycle h

/-- The prefix of the plan that is attempted: every host up to and
including the first usable one, or the whole plan when none is. -/
def attempted (alloc recycle : Host → Option Nat) : List Host → List Host
  | [] => []
  | h :: plan =>
      match usable alloc recycle h with
      | some _ => [h]
      | none => h :: attempted alloc recycle plan

/-- The connection of the first usable host of the plan, scanned left
to right. -/
def firstConn (alloc recycle : Host → Option Nat) : List Host → Option Nat
  | [] => none
  | h :: plan =>
      match usable alloc recycle h with
      | some c => some c
      | none => firstConn alloc recycle plan

theorem firstConn_eq_none (alloc recycle : Host → Option Nat)
    (plan : List Host) :
    firstConn alloc recycle plan = none ↔
      ∀ h ∈ plan, alloc h = none ∧ recycle h = none := by
  induction plan with
  | nil => simp [firstConn]
  | cons h plan ih =>
      simp only [firstConn, List.mem_cons]
      cases ha : alloc h with
      | some c =>
          simp only [usable, ha]
          constructor
          · intro hcontra
            exact Option.noConfusion hcontra
          · intro hall
            have := (hall h (Or.inl rfl)).1
            rw [ha] at this
            exact Option.noConfusion this
      | none =>
          cases hr : recycle h with
          | some c =>
              simp only [usable, ha, hr]
              constructor
              · intro hcontra
                exact Option.noConfusion hcontra
              · intro hall
                have := (hall h (Or.inl rfl)).2
                rw [hr] at this
                exact Option.noConfusion this
          | none =>
              simp only [usable, ha, hr]
              rw [ih]
              constructor
              · intro hall x hx
                rcases hx with hx | hx
                · subst hx
                  exact ⟨ha, hr⟩
                · exact hall x hx
              · intro hall x hx
                exact hall x (Or.inr hx)

theorem connect_eq (alloc recycle : Host → Option Nat)
    (plan tried : List Host) :
    connect alloc recycle plan tried =
      (tried ++ attempted alloc recycle plan,
        match firstConn alloc recycle plan with
        | some c => .ok c
        | none => .error .noHostAvailable) := by
  induction plan generalizing tried with
  | nil => simp [connect, attempted, firstConn]
  | cons h plan ih =>
      cases ha : alloc h with
      | some c => simp [connect, attempted, firstConn, usable, ha]
      | none =>
          cases hr : recycle h with
          | some c => simp [connect, attempted, firstConn, usable, ha, hr]
          | none =>
              simp only [connect, attempted, firstConn, usable, ha, hr]
              rw [ih]
              simp

end Connect

/-! ## Request dispatch with a retry ceiling (spec section 4.5) -/

namespace Retry

inductive Decision where
  | retrySameHost
  | retryNextHost
  | rethrow
  | ignore
deriving Repr, DecidableEq

inductive ErrKind where
  | connectionLost
  | timeout
  | unavailable
deriving Repr, DecidableEq

inductive Outcome where
  | success
  | ignoredResult
  | failed (e : ErrKind)
  | retryLimitExceeded
deriving Repr, DecidableEq

/-- Modelled from the spec: the body of the execute dispatch loop and
the use of the `_reconnect_limit` ceiling declared in
cql_session_impl.hpp are not under src.  Spec section 4.5: the
dispatcher never retries a Rethrow or Ignore outcome and bounds total
attempts by a hard ceiling, surfacing RetryLimitExceeded when
breached.  The result of each attempt is abstracted as a function from
the attempt index to an optional error, the Retry Policy as a function
from attempt index and error to a decision.  `fuel` is the number of
attempts still allowed; the result carries the terminal outcome and
the index one past the last attempt performed. -/
def dispatch (att : Nat → Option ErrKind)
    (policy : Nat → ErrKind → Decision) : Nat → Nat → Outcome × Nat
  | 0, n => (.retryLimitExceeded, n)
  | fuel + 1, n =>
      match att n with
      | none => (.success, n + 1)
      | some e =>
          match policy n e with
          | .rethrow => (.failed e, n + 1)
          | .ignore => (.ignoredResult, n + 1)
          | .retrySameHost => dispatch att policy fuel (n + 1)
          | .retryNextHost => dispatch att policy fuel (n + 1)

/-- Execute a request under a retry ceiling: up to `ceiling` attempts
starting from attempt 0. -/
def execute (att : Nat → Option ErrKind)
    (policy : Nat → ErrKind → Decision) (ceiling : Nat) : Outcome × Nat :=
  dispatch att policy ceiling 0

theorem dispatch_attempts_le (att : Nat → Option ErrKind)
    (policy : Nat → ErrKind → Decision) (fuel n : Nat) :
    (dispatch att policy fuel n).2 ≤ n + fuel := by
  induction fuel generalizing n with
  | zero => simp [dispatch]
  | succ fuel ih =>
      simp only [dispatch]
      cases att n with
      | none =>
          dsimp only
          omega
      | some e =>
          dsimp only
          cases policy n e with
          | rethrow =>
              dsimp only
              omega
          | ignore =>
              dsimp only
              omega
          | retrySameHost =>
              dsimp only
              have := ih (n + 1)
              omega
          | retryNextHost =>
              dsimp only
              have := ih (n + 1)
              omega

theorem dispatch_always_retry (att : Nat → Option ErrKind)
    (policy : Nat → ErrKind → Decision)
    (hfail : ∀ n, att n ≠ none)
    (hnext : ∀ n e, policy n e = .retryNextHost) (fuel n : Nat) :
    dispatch att policy fuel n = (.retryLimitExceeded, n + fuel) := by
  induction fuel generalizing n with
  | zero => simp [dispatch]
  | succ fuel ih =>
      simp only [dispatch]
      cases ha : att n with
      | none => exact absurd ha (hfail n)
      | some e =>
          dsimp only
          rw [hnext n e]
          dsimp only
          rw [ih (n + 1)]
          congr 1
          omega

end Retry

/-! ## Session state machine (spec section 4.6) -/

namespace Sess

inductive Phase where
  | initializing
  | ready
  | closing
  | closed
deriving Repr, DecidableEq

/-- Modelled from the spec: the bodies of `cql_session_impl_t::init`,
`close` and `defunct` (the updates of the `_defunct` member declared in
cql_session_impl.hpp) are not under src.  Spec section 4.6: phases
Initializing -> Ready -> Closing -> Closed with an orthogonal Defunct
flag; section 3 adds that the session transitions to defunct on
explicit close or unrecoverable startup failure and is never
resurrected. -/
structure State where
  phase : Phase
  defunct : Bool
deriving Repr, DecidableEq

/-- The state a freshly created session starts in. -/
def start : State :=
  { phase := .initializing, defunct := false }

/-- The session-level events that mutate the state. -/
inductive Ev where
  | initDone
  | closeBegin
  | closeFinish
  | fatalError
  | startupFailure
deriving Repr, DecidableEq

/-- Modelled from the spec: one state transition.  `initDone` moves
Initializing to Ready; `closeBegin` enters Closing and, per the data
model, sets the defunct flag; `closeFinish` completes the close;
`fatalError` and `startupFailure` set the defunct flag from any
state.  No event ever clears the flag. -/
def step (s : State) : Ev → State
  | .initDone =>
      if s.phase = .initializing then { s with phase := .ready } else s
  | .closeBegin => { phase := .closing, defunct := true }
  | .closeFinish =>
      if s.phase = .closing then { s with phase := .closed } else s
  | .fatalError => { s with defunct := true }
  | .startupFailure => { s with defunct := true }

/-- Apply a sequence of events left to right. -/
def runEv (s : State) : List Ev → State
  | [] => s
  | ev :: evs => runEv (step s ev) evs

inductive ReqResult where
  | rejectedSessionDefunct
  | dispatched
deriving Repr, DecidableEq

/-- Modelled from the spec: every new request issued while the session
is Defunct fails immediately with SessionDefunct and is never
dispatched. -/
def submitRequest (s : State) : ReqResult :=
  if s.defunct then .rejectedSessionDefunct else .dispatched

theorem defunct_step (s : State) (ev : Ev) (h : s.defunct = true) :
    (step s ev).defunct = true := by
  cases ev with
  | initDone =>
      simp only [step]
      by_cases hp : s.phase = .initializing
      · rw [if_pos hp]
        exact h
      · rw [if_neg hp]
        exact h
  | closeBegin => rfl
  | closeFinish =>
      simp only [step]
      by_cases hp : s.phase = .closing
      · rw [if_pos hp]
        exact h
      · rw [if_neg hp]
        exact h
  | fatalError => rfl
  | startupFailure => rfl

end Sess

/-! ## Session close (spec section 4.6) -/

namespace Close

/-- Modelled from the spec: the body of `cql_session_impl_t::close` is
not under src (only its declaration is).  The session-wide view that
close mutates: the in-flight Pending Requests, the completion log, the
per-host pools (`_connection_pool`), the trashcan (`_trashcan`), the
log of freed connections, and the phase. -/
structure SessionState where
  pending : List Nat
  completions : List (Nat × Bool)
  pools : List (String × List Nat)
  trashcan : List Nat
  freedConns : List Nat
  phase : Sess.Phase
deriving Repr, DecidableEq

/-- Deliver a terminal outcome at most once: a request that already has
a completion is left untouched (the exactly-once completion
invariant of section 3). -/
def completeOnce (comp : List (Nat × Bool)) (r : Nat) (ok : Bool) :
    List (Nat × Bool) :=
  if r ∈ comp.map Prod.fst then comp else comp ++ [(r, ok)]

/-- Drain the in-flight requests in order, failing each with
SessionClosing (recorded as a non-success completion), each at most
once. -/
def drainClosing (pend : List Nat) (comp : List (Nat × Bool)) :
    List (Nat × Bool) :=
  match pend with
  | [] => comp
  | r :: rest => drainClosing rest (completeOnce comp r false)

/-- Modelled from the spec: `close()` drains in-flight Pending Requests
with a SessionClosing failure, frees every connection in every pool and
the trashcan, and transitions to Closed. -/
def close (s : SessionState) : SessionState :=
  { pending := [],
    completions := drainClosing s.pending s.completions,
    pools := s.pools.map (fun p => (p.1, [])),
    trashcan := [],
    freedConns := s.freedConns ++ (s.pools.map Prod.snd).flatten ++ s.trashcan,
    phase := .closed }

theorem drainClosing_eq (pend : List Nat) (comp : List (Nat × Bool))
    (hnd : pend.Nodup) (hfresh : ∀ r ∈ pend, r ∉ comp.map Prod.fst) :
    drainClosing pend comp = comp ++ pend.map (fun r => (r, false)) := by
  induction pend generalizing comp with
  | nil => simp [drainClosing]
  | cons r rest ih =>
      have hr : r ∉ comp.map Prod.fst :=
        hfresh r (List.mem_cons_self r rest)
      simp only [drainClosing, completeOnce, if_neg hr]
      rw [ih (comp ++ [(r, false)]) (List.nodup_cons.mp hnd).2]
      · simp
      · intro x hx
        simp only [List.map_append, List.mem_append]
        rintro (hc | hc)
        · exact hfresh x (List.mem_cons_of_mem r hx) hc
        · simp only [List.map_singleton, List.mem_singleton] at hc
          subst hc
          exact (List.nodup_cons.mp hnd).1 hx

end Close

/-! ## Claim theorems for C2 and C10 -/

/-- C2: for every Stream Allocator with capacity N and every sequence of
acquire/release calls, acquire never returns an id that is currently
outstanding, and after N acquires with no intervening release the
(N+1)th acquire fails with Exhausted. -/
theorem stream_allocator_fresh_and_exhausted (N : Nat)
    (ops : List StreamAlloc.Op) (i : Nat) (s2 : StreamAlloc.State)
    (h : StreamAlloc.acquire (StreamAlloc.run (StreamAlloc.init N) ops) =
      .ok i s2) :
    i ∉ (StreamAlloc.run (StreamAlloc.init N) ops).outstanding ∧
    StreamAlloc.acquire (StreamAlloc.run (StreamAlloc.init N)
      (List.replicate N .acquire)) = .exhausted := by
  constructor
  · set s := StreamAlloc.run (StreamAlloc.init N) ops with hs
    have hwf : StreamAlloc.WF s :=
      StreamAlloc.WF_run _ _ (StreamAlloc.WF_init N)
    have hnd := StreamAlloc.nodup_of_WF s hwf
    cases hf : s.free with
    | nil =>
        simp only [StreamAlloc.acquire, hf] at h
        exact StreamAlloc.AcquireResult.noConfusion h
    | cons j rest =>
        simp only [StreamAlloc.acquire, hf] at h
        injection h with h1 h2
        subst h1
        rw [hf] at hnd
        have := (List.nodup_append.mp hnd).2.2
        exact this (List.mem_cons_self j rest)
  · have hfree := StreamAlloc.free_run_acquires N (StreamAlloc.init N)
    have hnil : (StreamAlloc.init N).free.drop N = [] := by
      simp [StreamAlloc.init]
    rw [hnil] at hfree
    simp [StreamAlloc.acquire, hfree]

/-- Witness for C2 at capacity 2 and the empty operation sequence. -/
theorem stream_allocator_fresh_and_exhausted_witness :
    0 ∉ (StreamAlloc.run (StreamAlloc.init 2) []).outstanding ∧
    StreamAlloc.acquire (StreamAlloc.run (StreamAlloc.init 2)
      (List.replicate 2 .acquire)) = .exhausted :=
  stream_allocator_fresh_and_exhausted 2 [] 0
    { capacity := 2, free := [1], outstanding := [0] } (by decide)

/-- C3: for every Connection Pool and host, after any sequence of
allocate / trashcan_put / free operations the number of active
connections is at most the configured limit for the host proximity
class, and trashcan entries are not part of the counted active set. -/
theorem pool_active_within_limit (cfg : Pool.Config) (d : Pool.Distance)
    (ops : List Pool.Op) (hops : ∀ o ∈ ops, o.isRecycle = false) :
    (Pool.run cfg d Pool.init ops).active.card ≤ cfg.limit d ∧
    (Pool.run cfg d Pool.init ops).active ∩
      (Pool.run cfg d Pool.init ops).trashcan = ∅ := by
  constructor
  · exact Pool.card_le_limit_run cfg d Pool.init ops Pool.Inv_init
      (by simp [Pool.init]) hops
  · have hInv := Pool.Inv_run cfg d Pool.init ops Pool.Inv_init
    rw [Finset.eq_empty_iff_forall_not_mem]
    intro x hx
    rw [Finset.mem_inter] at hx
    exact (hInv x).2.1 hx

/-- Witness for C3: limit 2, one allocate, one trashcan_put, one
free. -/
theorem pool_active_within_limit_witness :
    (∀ o ∈ ([.alloc, .put 0 3, .free 1] : List Pool.Op),
      o.isRecycle = false) ∧
    (Pool.run ⟨2, 1, 5⟩ .localNode Pool.init
      [.alloc, .put 0 3, .free 1]).active.card ≤
        Pool.Config.limit ⟨2, 1, 5⟩ .localNode ∧
    (Pool.run ⟨2, 1, 5⟩ .localNode Pool.init
      [.alloc, .put 0 3, .free 1]).active ∩
      (Pool.run ⟨2, 1, 5⟩ .localNode Pool.init
        [.alloc, .put 0 3, .free 1]).trashcan = ∅ :=
  ⟨by decide,
    pool_active_within_limit ⟨2, 1, 5⟩ .localNode
      [.alloc, .put 0 3, .free 1] (by decide)⟩

/-- C8: on any reachable pool state, calling allocate twice in
succession gives the same state and the same returned set of active
connections as calling it once, and a call on a pool already at
capacity leaves the state unchanged. -/
theorem pool_allocate_idempotent (cfg : Pool.Config) (d : Pool.Distance)
    (ops : List Pool.Op) :
    Pool.allocStep cfg d
        (Pool.allocStep cfg d (Pool.run cfg d Pool.init ops)).1 =
      Pool.allocStep cfg d (Pool.run cfg d Pool.init ops) ∧
    (∀ s : Pool.State, s.active.card = cfg.limit d →
      (Pool.allocStep cfg d s).1 = s) := by
  have hAtCap : ∀ s : Pool.State, cfg.limit d ≤ s.active.card →
      (Pool.allocStep cfg d s).1 = s := by
    intro s hs
    cases d with
    | ignoredNode => rfl
    | localNode =>
        simp only [Pool.allocStep, Pool.allocate_connection]
        rw [Pool.allocFill_no_op _ s hs]
    | remoteNode =>
        simp only [Pool.allocStep, Pool.allocate_connection]
        rw [Pool.allocFill_no_op _ s hs]
  constructor
  · have hInv := Pool.Inv_run cfg d Pool.init ops Pool.Inv_init
    set s := Pool.run cfg d Pool.init ops with hsdef
    cases d with
    | ignoredNode => rfl
    | localNode =>
        have hcard := Pool.card_allocFill (cfg.limit .localNode) s hInv
        simp only [Pool.allocStep, Pool.allocate_connection]
        rw [Pool.allocFill_no_op _ _ (by rw [hcard]; omega)]
    | remoteNode =>
        have hcard := Pool.card_allocFill (cfg.limit .remoteNode) s hInv
        simp only [Pool.allocStep, Pool.allocate_connection]
        rw [Pool.allocFill_no_op _ _ (by rw [hcard]; omega)]
  · intro s hs
    exact hAtCap s (le_of_eq hs.symm)

/-- Witness for C8: limit 1, one allocate brings the pool to capacity;
a further allocate is a no-op. -/
theorem pool_allocate_idempotent_witness :
    Pool.allocStep ⟨1, 1, 0⟩ .localNode
        (Pool.allocStep ⟨1, 1, 0⟩ .localNode
          (Pool.run ⟨1, 1, 0⟩ .localNode Pool.init [.alloc])).1 =
      Pool.allocStep ⟨1, 1, 0⟩ .localNode
        (Pool.run ⟨1, 1, 0⟩ .localNode Pool.init [.alloc]) ∧
    ((Pool.run ⟨1, 1, 0⟩ .localNode Pool.init [.alloc]).active.card =
        Pool.Config.limit ⟨1, 1, 0⟩ .localNode ∧
      (Pool.allocStep ⟨1, 1, 0⟩ .localNode
        (Pool.run ⟨1, 1, 0⟩ .localNode Pool.init [.alloc])).1 =
          Pool.run ⟨1, 1, 0⟩ .localNode Pool.init [.alloc]) :=
  ⟨(pool_allocate_idempotent ⟨1, 1, 0⟩ .localNode [.alloc]).1,
    by decide,
    (pool_allocate_idempotent ⟨1, 1, 0⟩ .localNode [.alloc]).2 _ (by decide)⟩

/-- C9: after any sequence of pool operations, every connection ever
created is in exactly one of the three states: active, trashcan, or
freed. -/
theorem pool_exactly_one_state (cfg : Pool.Config) (d : Pool.Distance)
    (ops : List Pool.Op) (c : Nat)
    (hc : c < (Pool.run cfg d Pool.init ops).nextId) :
    (c ∈ (Pool.run cfg d Pool.init ops).active ∧
      c ∉ (Pool.run cfg d Pool.init ops).trashcan ∧
      c ∉ (Pool.run cfg d Pool.init ops).freed) ∨
    (c ∉ (Pool.run cfg d Pool.init ops).active ∧
      c ∈ (Pool.run cfg d Pool.init ops).trashcan ∧
      c ∉ (Pool.run cfg d Pool.init ops).freed) ∨
    (c ∉ (Pool.run cfg d Pool.init ops).active ∧
      c ∉ (Pool.run cfg d Pool.init ops).trashcan ∧
      c ∈ (Pool.run cfg d Pool.init ops).freed) := by
  have hInv := Pool.Inv_run cfg d Pool.init ops Pool.Inv_init
  obtain ⟨h1, h2, h3, h4⟩ := hInv c
  rcases h1.mp hc with hA | hT | hF
  · exact Or.inl ⟨hA, fun hT2 => h2 ⟨hA, hT2⟩, fun hF2 => h3 ⟨hA, hF2⟩⟩
  · exact Or.inr (Or.inl
      ⟨fun hA2 => h2 ⟨hA2, hT⟩, hT, fun hF2 => h4 ⟨hT, hF2⟩⟩)
  · exact Or.inr (Or.inr
      ⟨fun hA2 => h3 ⟨hA2, hF⟩, fun hT2 => h4 ⟨hT2, hF⟩, hF⟩)

/-- Witness for C9: connection 0 after allocate, trashcan_put,
recycle, free. -/
theorem pool_exactly_one_state_witness :
    0 < (Pool.run ⟨1, 1, 9⟩ .localNode Pool.init
      [.alloc, .put 0 1, .recycle 2, .free 0]).nextId ∧
    ((0 ∈ (Pool.run ⟨1, 1, 9⟩ .localNode Pool.init
        [.alloc, .put 0 1, .recycle 2, .free 0]).active ∧
      0 ∉ (Pool.run ⟨1, 1, 9⟩ .localNode Pool.init
        [.alloc, .put 0 1, .recycle 2, .free 0]).trashcan ∧
      0 ∉ (Pool.run ⟨1, 1, 9⟩ .localNode Pool.init
        [.alloc, .put 0 1, .recycle 2, .free 0]).freed) ∨
    (0 ∉ (Pool.run ⟨1, 1, 9⟩ .localNode Pool.init
        [.alloc, .put 0 1, .recycle 2, .free 0]).active ∧
      0 ∈ (Pool.run ⟨1, 1, 9⟩ .localNode Pool.init
        [.alloc, .put 0 1, .recycle 2, .free 0]).trashcan ∧
      0 ∉ (Pool.run ⟨1, 1, 9⟩ .localNode Pool.init
        [.alloc, .put 0 1, .recycle 2, .free 0]).freed) ∨
    (0 ∉ (Pool.run ⟨1, 1, 9⟩ .localNode Pool.init
        [.alloc, .put 0 1, .recycle 2, .free 0]).active ∧
      0 ∉ (Pool.run ⟨1, 1, 9⟩ .localNode Pool.init
        [.alloc, .put 0 1, .recycle 2, .free 0]).trashcan ∧
      0 ∈ (Pool.run ⟨1, 1, 9⟩ .localNode Pool.init
        [.alloc, .put 0 1, .recycle 2, .free 0]).freed)) :=
  ⟨by decide,
    pool_exactly_one_state ⟨1, 1, 9⟩ .localNode
      [.alloc, .put 0 1, .recycle 2, .free 0] 0 (by decide)⟩

/-- C1: over any operation sequence on a connection, the completions
delivered plus the requests still pending account exactly for the
successful sends, no request is completed twice, and a connection-wide
ConnectionLost leaves no pending request uncompleted: afterwards the
number of completions equals the number of successful sends. -/
theorem connection_completions_exact (n : Nat) (ops : List Conn.Op) :
    (Conn.run (Conn.init n) ops).completions.length +
        (Conn.run (Conn.init n) ops).table.length =
      (Conn.run (Conn.init n) ops).sends ∧
    ((Conn.run (Conn.init n) ops).completions.map Prod.fst).Nodup ∧
    (Conn.run (Conn.init n) (ops ++ [.connLost])).table = [] ∧
    (Conn.run (Conn.init n) (ops ++ [.connLost])).completions.length =
      (Conn.run (Conn.init n) (ops ++ [.connLost])).sends := by
  obtain ⟨hlen, hnd, hlt⟩ := Conn.CInv_run (Conn.init n) ops (Conn.CInv_init n)
  refine ⟨hlen, ?_, ?_, ?_⟩
  · simp only [Conn.ReqIds] at hnd
    exact (List.nodup_append.mp hnd).1
  · rw [Conn.run_append]
    rfl
  · rw [Conn.run_append]
    obtain ⟨hl2, -, -⟩ :=
      Conn.CInv_step (Conn.run (Conn.init n) ops) .connLost ⟨hlen, hnd, hlt⟩
    have hrun : Conn.run (Conn.run (Conn.init n) ops) [.connLost] =
        Conn.step (Conn.run (Conn.init n) ops) .connLost := rfl
    rw [hrun]
    have htable :
        (Conn.step (Conn.run (Conn.init n) ops) .connLost).table = [] := rfl
    rw [htable] at hl2
    simpa using hl2

/-- C4: connect iterates the plan in order, trying allocate before
trashcan_recycle on each host, appends every attempted host to
tried_hosts, returns the connection of the first usable host, and
fails with NoHostAvailable exactly when no host of the plan yields a
connection from either source. -/
theorem session_connect_plan (alloc recycle : Connect.Host → Option Nat)
    (plan tried : List Connect.Host) :
    Connect.connect alloc recycle plan tried =
      (tried ++ Connect.attempted alloc recycle plan,
        match Connect.firstConn alloc recycle plan with
        | some c => .ok c
        | none => .error .noHostAvailable) ∧
    ((Connect.connect alloc recycle plan tried).2 =
        .error .noHostAvailable ↔
      ∀ h ∈ plan, alloc h = none ∧ recycle h = none) := by
  refine ⟨Connect.connect_eq alloc recycle plan tried, ?_⟩
  rw [Connect.connect_eq alloc recycle plan tried]
  cases hf : Connect.firstConn alloc recycle plan with
  | some c =>
      constructor
      · intro hcontra
        exact Except.noConfusion hcontra
      · intro hall
        rw [(Connect.firstConn_eq_none alloc recycle plan).mpr hall] at hf
        exact Option.noConfusion hf
  | none =>
      constructor
      · intro _
        exact (Connect.firstConn_eq_none alloc recycle plan).mp hf
      · intro _
        rfl

/-- C5: the dispatcher performs at most the configured ceiling of
attempts; under a policy that always answers RetryNextHost and
attempts that always fail it terminates with RetryLimitExceeded at
exactly the ceiling; and it never performs a further retry once the
policy answers Rethrow or Ignore: those branches return at once after
the current attempt. -/
theorem session_execute_retry_ceiling (att : Nat → Option Retry.ErrKind)
    (policy : Nat → Retry.ErrKind → Retry.Decision) (ceiling : Nat) :
    (Retry.execute att policy ceiling).2 ≤ ceiling ∧
    ((∀ n, att n ≠ none) →
      (∀ n e, policy n e = .retryNextHost) →
      Retry.execute att policy ceiling = (.retryLimitExceeded, ceiling)) ∧
    (∀ fuel n e, att n = some e → policy n e = .rethrow →
      Retry.dispatch att policy (fuel + 1) n = (.failed e, n + 1)) ∧
    (∀ fuel n e, att n = some e → policy n e = .ignore →
      Retry.dispatch att policy (fuel + 1) n = (.ignoredResult, n + 1)) := by
  refine ⟨?_, ?_, ?_, ?_⟩
  · have := Retry.dispatch_attempts_le att policy ceiling 0
    simpa [Retry.execute] using this
  · intro hfail hnext
    have := Retry.dispatch_always_retry att policy hfail hnext ceiling 0
    simpa [Retry.execute] using this
  · intro fuel n e ha hp
    simp [Retry.dispatch, ha, hp]
  · intro fuel n e ha hp
    simp [Retry.dispatch, ha, hp]

/-- Witness for C5: three failing attempts under an always-retry-next
policy; a rethrow policy and an ignore policy stop at once. -/
theorem session_execute_retry_ceiling_witness :
    (Retry.execute (fun _ => some .connectionLost)
      (fun _ _ => .retryNextHost) 3).2 ≤ 3 ∧
    Retry.execute (fun _ => some .connectionLost)
      (fun _ _ => .retryNextHost) 3 = (.retryLimitExceeded, 3) ∧
    Retry.dispatch (fun _ => some .connectionLost)
      (fun _ _ => .rethrow) 5 0 = (.failed .connectionLost, 1) ∧
    Retry.dispatch (fun _ => some .connectionLost)
      (fun _ _ => .ignore) 5 0 = (.ignoredResult, 1) :=
  ⟨(session_execute_retry_ceiling (fun _ => some .connectionLost)
      (fun _ _ => .retryNextHost) 3).1,
    (session_execute_retry_ceiling (fun _ => some .connectionLost)
      (fun _ _ => .retryNextHost) 3).2.1
      (fun n => by simp) (fun n e => rfl),
    (session_execute_retry_ceiling (fun _ => some .connectionLost)
      (fun _ _ => .rethrow) 3).2.2.1 4 0 .connectionLost rfl rfl,
    (session_execute_retry_ceiling (fun _ => some .connectionLost)
      (fun _ _ => .ignore) 3).2.2.2 4 0 .connectionLost rfl rfl⟩

/-- C6: the Defunct flag can be set from any state by a fatal error or
an unrecoverable startup failure, once set it survives every further
event sequence, and every request issued while it is set is rejected
immediately with SessionDefunct instead of being dispatched. -/
theorem session_defunct_permanent (s : Sess.State) (evs : List Sess.Ev)
    (h : s.defunct = true) :
    (Sess.runEv s evs).defunct = true ∧
    Sess.submitRequest s = .rejectedSessionDefunct ∧
    (∀ s2 : Sess.State, (Sess.step s2 .fatalError).defunct = true ∧
      (Sess.step s2 .startupFailure).defunct = true) := by
  refine ⟨?_, ?_, fun s2 => ⟨rfl, rfl⟩⟩
  · induction evs generalizing s with
    | nil => exact h
    | cons ev evs ih => exact ih _ (Sess.defunct_step s ev h)
  · simp [Sess.submitRequest, h]

/-- Witness for C6: a ready session marked defunct stays defunct
through a close sequence and rejects a new request. -/
theorem session_defunct_permanent_witness :
    ({ phase := .ready, defunct := true } : Sess.State).defunct = true ∧
    ((Sess.runEv { phase := .ready, defunct := true }
        [.closeBegin, .closeFinish, .initDone]).defunct = true ∧
      Sess.submitRequest { phase := .ready, defunct := true } =
        .rejectedSessionDefunct ∧
      (∀ s2 : Sess.State, (Sess.step s2 .fatalError).defunct = true ∧
        (Sess.step s2 .startupFailure).defunct = true)) :=
  ⟨rfl, session_defunct_permanent { phase := .ready, defunct := true }
    [.closeBegin, .closeFinish, .initDone] rfl⟩

/-- C7: close fails every in-flight Pending Request with exactly one
SessionClosing failure (never a success and never a second
completion), empties every per-host pool and the trashcan into the
freed log, and leaves the session Closed. -/
theorem session_close_spec (s : Close.SessionState)
    (hnd : s.pending.Nodup)
    (hfresh : ∀ r ∈ s.pending, r ∉ s.completions.map Prod.fst) :
    (∀ r ∈ s.pending,
      ((Close.close s).completions.map Prod.fst).count r = 1 ∧
      (r, true) ∉ (Close.close s).completions) ∧
    (Close.close s).pending = [] ∧
    (∀ p ∈ (Close.close s).pools, p.2 = ([] : List Nat)) ∧
    (Close.close s).trashcan = [] ∧
    (Close.close s).phase = .closed ∧
    (∀ c : Nat, ((∃ p ∈ s.pools, c ∈ p.2) ∨ c ∈ s.trashcan) →
      c ∈ (Close.close s).freedConns) := by
  have hdrain := Close.drainClosing_eq s.pending s.completions hnd hfresh
  refine ⟨?_, rfl, ?_, rfl, rfl, ?_⟩
  · intro r hr
    have hcomp : (Close.close s).completions =
        s.completions ++ s.pending.map (fun r => (r, false)) := hdrain
    constructor
    · rw [hcomp]
      rw [List.map_append, List.count_append]
      have h0 : (s.completions.map Prod.fst).count r = 0 :=
        List.count_eq_zero.mpr (hfresh r hr)
      have hid : (s.pending.map (fun r => (r, false))).map Prod.fst =
          s.pending := by
        rw [List.map_map]
        exact List.map_id s.pending
      rw [h0, hid, List.count_eq_one_of_mem hnd hr]
    · rw [hcomp]
      rw [List.mem_append]
      rintro (hm | hm)
      · exact hfresh r hr (List.mem_map_of_mem Prod.fst hm)
      · rw [List.mem_map] at hm
        obtain ⟨x, -, hx⟩ := hm
        exact Bool.noConfusion (congrArg Prod.snd hx)
  · intro p hp
    simp only [Close.close, List.mem_map] at hp
    obtain ⟨q, -, hq⟩ := hp
    rw [← hq]
  · intro c hc
    simp only [Close.close, List.mem_append]
    rcases hc with ⟨p, hp, hcp⟩ | hct
    · refine Or.inl (Or.inr ?_)
      rw [List.mem_flatten]
      exact ⟨p.2, List.mem_map_of_mem Prod.snd hp, hcp⟩
    · exact Or.inr hct

/-- Witness for C7: five in-flight requests across two connections held
in two per-host pools. -/
theorem session_close_spec_witness :
    ([0, 1, 2, 3, 4] : List Nat).Nodup ∧
    ((∀ r ∈ ([0, 1, 2, 3, 4] : List Nat),
      ((Close.close ⟨[0, 1, 2, 3, 4], [], [("a", [10]), ("b", [11])],
          [], [], .ready⟩).completions.map Prod.fst).count r = 1 ∧
      (r, true) ∉ (Close.close ⟨[0, 1, 2, 3, 4], [],
          [("a", [10]), ("b", [11])], [], [], .ready⟩).completions) ∧
    (Close.close ⟨[0, 1, 2, 3, 4], [], [("a", [10]), ("b", [11])],
        [], [], .ready⟩).pending = [] ∧
    (∀ p ∈ (Close.close ⟨[0, 1, 2, 3, 4], [], [("a", [10]), ("b", [11])],
        [], [], .ready⟩).pools, p.2 = ([] : List Nat)) ∧
    (Close.close ⟨[0, 1, 2, 3, 4], [], [("a", [10]), ("b", [11])],
        [], [], .ready⟩).trashcan = [] ∧
    (Close.close ⟨[0, 1, 2, 3, 4], [], [("a", [10]), ("b", [11])],
        [], [], .ready⟩).phase = .closed ∧
    (∀ c : Nat, ((∃ p ∈ ([("a", [10]), ("b", [11])] :
          List (String × List Nat)), c ∈ p.2) ∨ c ∈ ([] : List Nat)) →
      c ∈ (Close.close ⟨[0, 1, 2, 3, 4], [], [("a", [10]), ("b", [11])],
        [], [], .ready⟩).freedConns)) :=
  ⟨by decide,
    session_close_spec
      ⟨[0, 1, 2, 3, 4], [], [("a", [10]), ("b", [11])], [], [], .ready⟩
      (by decide) (by decide)⟩

/-- C10: HttpClient.is_ok returns true iff the socket connector reports
success and the status code lies in 200..299; in particular any
completed response with a status of 300 or above yields false. -/
theorem http_is_ok_iff (c : Http.HttpClient) :
    (c.is_ok = true ↔
      c.socket_ok = true ∧ 200 ≤ c.status_code ∧ c.status_code ≤ 299) ∧
    (300 ≤ c.status_code → c.is_ok = false) := by
  constructor
  · simp [Http.HttpClient.is_ok, and_assoc]
  · intro h3
    have h299 : ¬ (c.status_code ≤ 299) := by omega
    simp [Http.HttpClient.is_ok, h299]

/-- Witness for C10 at a 404 response. -/
theorem http_is_ok_iff_witness :
    300 ≤ (404 : Nat) ∧
    ({ socket_ok := true, status_code := 404 } : Http.HttpClient).is_ok
      = false :=
  ⟨by decide,
    (http_is_ok_iff { socket_ok := true, status_code := 404 }).2 (by decide)⟩

end CppDriver
